import Mathlib

/-!
Verification of `chinese_segmenter.py`.

Strings are modelled as `List Char` (Python 3 strings are sequences of Unicode
code points; Lean's `Char` is a Unicode scalar value, which covers every code
point the program manipulates).  Python sets of strings become
`Finset (List Char)`; file-system reads become explicit inputs
(`Except PyExc (List Char)`, where an `error` models the exception raised by
`open`/`read`); file-system writes and directory creation are recorded in the
returned effect structures; the set of paths that exist in the output
directory is an explicit `List (List Char)` argument used by the
`.exists()` probes.
-/

namespace ChineseSegmenter

/-- Python `str.isspace`-style whitespace set used by `str.strip()`:
the Unicode whitespace code points. -/
def isPySpace (c : Char) : Bool :=
  let n := c.toNat
  (0x09 ≤ n && n ≤ 0x0d) || n == 0x20 || (0x1c ≤ n && n ≤ 0x1f) || n == 0x85 ||
    n == 0xa0 || n == 0x1680 || (0x2000 ≤ n && n ≤ 0x200a) || n == 0x2028 ||
    n == 0x2029 || n == 0x202f || n == 0x205f || n == 0x3000

/-- Python `str.strip()`: remove leading whitespace, then trailing whitespace
(implemented by reversing, dropping, and reversing back). -/
def pyStrip (l : List Char) : List Char :=
  ((l.dropWhile isPySpace).reverse.dropWhile isPySpace).reverse

/-- Membership of one code point in the character class
`[一-鿿㐀-䶿\U00020000-\U0002a6df]` of `is_chinese_word`
(source line 29). -/
def isChineseChar (c : Char) : Bool :=
  let n := c.toNat
  (0x4e00 ≤ n && n ≤ 0x9fff) || (0x3400 ≤ n && n ≤ 0x4dbf) ||
    (0x20000 ≤ n && n ≤ 0x2a6df)

/-- Python `re` semantics of `$` (without `re.MULTILINE`): `$` matches at the
end of the string, or just before a newline at the end of the string. -/
def dollarAt (w : List Char) (k : Nat) : Bool :=
  k == w.length || (k + 1 == w.length && w.getD k ' ' == '\n')

/-- Embeds `is_chinese_word` (source lines 23-30):
`bool(re.compile(r'^[ranges]+$').match(word))`.  The anchored match succeeds
exactly when some non-empty prefix of `w` consists of class characters and
ends at a position where `$` matches (backtracking over the greedy `+`). -/
def is_chinese_word (w : List Char) : Bool :=
  (List.range (w.length + 1)).any fun k =>
    k != 0 && (w.take k).all isChineseChar && dollarAt w k

/-- Python string `<=`: lexicographic comparison by code point. -/
def lexLe (a b : List Char) : Bool :=
  match a, b with
  | [], _ => true
  | _ :: _, [] => false
  | x :: xs, y :: ys =>
    if x.toNat < y.toNat then true
    else if y.toNat < x.toNat then false
    else lexLe xs ys

/-- Python string `<`: strict lexicographic comparison by code point. -/
def lexLt (a b : List Char) : Bool :=
  match a, b with
  | _, [] => false
  | [], _ :: _ => true
  | x :: xs, y :: ys =>
    if x.toNat < y.toNat then true
    else if y.toNat < x.toNat then false
    else lexLt xs ys

/-- `lexLe` as a relation, for use with `Finset.sort`. -/
def lexLeP (a b : List Char) : Prop := lexLe a b = true

/-- `lexLt` as a relation. -/
def lexLtP (a b : List Char) : Prop := lexLt a b = true

instance : DecidableRel lexLeP :=
  fun a b => inferInstanceAs (Decidable (lexLe a b = true))

instance : DecidableRel lexLtP :=
  fun a b => inferInstanceAs (Decidable (lexLt a b = true))

theorem lexLe_cons {x y : Char} {xs ys : List Char} :
    lexLe (x :: xs) (y :: ys) = true ↔
      x.toNat < y.toNat ∨ (x.toNat = y.toNat ∧ lexLe xs ys = true) := by
  rcases Nat.lt_trichotomy x.toNat y.toNat with h | h | h
  · simp [lexLe, h]
  · have h1 : ¬ x.toNat < y.toNat := by omega
    have h2 : ¬ y.toNat < x.toNat := by omega
    simp [lexLe, h1, h2, h]
  · have h1 : ¬ x.toNat < y.toNat := by omega
    have h2 : x.toNat ≠ y.toNat := by omega
    simp [lexLe, h1, h, h2]

theorem lexLe_trans : ∀ {a b c : List Char},
    lexLe a b = true → lexLe b c = true → lexLe a c = true := by
  intro a
  induction a with
  | nil => intro b c _ _; cases c <;> rfl
  | cons x xs ih =>
    intro b c hab hbc
    cases b with
    | nil => simp [lexLe] at hab
    | cons y ys =>
      cases c with
      | nil => simp [lexLe] at hbc
      | cons z zs =>
        rw [lexLe_cons] at hab hbc ⊢
        rcases hab with h | ⟨he, h⟩
        · rcases hbc with h' | ⟨he', _⟩
          · exact Or.inl (by omega)
          · exact Or.inl (by omega)
        · rcases hbc with h' | ⟨he', h'⟩
          · exact Or.inl (by omega)
          · exact Or.inr ⟨by omega, ih h h'⟩

theorem lexLe_antisymm : ∀ {a b : List Char},
    lexLe a b = true → lexLe b a = true → a = b := by
  intro a
  induction a with
  | nil =>
    intro b _ hba
    cases b with
    | nil => rfl
    | cons y ys => simp [lexLe] at hba
  | cons x xs ih =>
    intro b hab hba
    cases b with
    | nil => simp [lexLe] at hab
    | cons y ys =>
      rw [lexLe_cons] at hab hba
      rcases hab with h | ⟨he, h⟩
      · rcases hba with h' | ⟨he', _⟩ <;> omega
      · rcases hba with h' | ⟨he', h'⟩
        · omega
        · have hx : x = y := Char.ext (UInt32.ext he)
          rw [hx, ih h h']

theorem lexLe_total : ∀ (a b : List Char), lexLe a b = true ∨ lexLe b a = true := by
  intro a
  induction a with
  | nil => intro b; left; cases b <;> rfl
  | cons x xs ih =>
    intro b
    cases b with
    | nil => right; cases xs <;> rfl
    | cons y ys =>
      rcases Nat.lt_trichotomy x.toNat y.toNat with h | h | h
      · exact Or.inl (lexLe_cons.mpr (Or.inl h))
      · rcases ih ys with h' | h'
        · exact Or.inl (lexLe_cons.mpr (Or.inr ⟨h, h'⟩))
        · exact Or.inr (lexLe_cons.mpr (Or.inr ⟨h.symm, h'⟩))
      · exact Or.inr (lexLe_cons.mpr (Or.inl h))

instance : IsTrans (List Char) lexLeP := ⟨fun _ _ _ => lexLe_trans⟩

instance : IsAntisymm (List Char) lexLeP := ⟨fun _ _ => lexLe_antisymm⟩

instance : IsTotal (List Char) lexLeP := ⟨lexLe_total⟩

/-- Python `sorted(s)` on a set of strings: the unique enumeration of the set
in ascending code-point order (source lines 106 and 218). -/
def sortWords (s : Finset (List Char)) : List (List Char) :=
  Finset.sort lexLeP s

/-- The decimal digit characters used by Python `str(int)`. -/
def digitChar (d : Nat) : Char := Char.ofNat (48 + d)

/-- Little-endian decimal digits of `n`, with structural fuel so the kernel
can evaluate it; `fuel ≥ n` always suffices. -/
def digitsRev (fuel n : Nat) : List Char :=
  match fuel with
  | 0 => []
  | fuel + 1 =>
    if n < 10 then [digitChar n]
    else digitChar (n % 10) :: digitsRev fuel (n / 10)

/-- Python `str(n)` for a natural number: decimal representation. -/
def natRepr (n : Nat) : List Char := (digitsRev (n + 1) n).reverse

/-- Index of the last occurrence of `c` in `l` (Python `str.rfind`),
`none` when absent. -/
def lastIndexOf (c : Char) (l : List Char) : Option Nat :=
  match l.reverse.findIdx? (fun a => a == c) with
  | some j => some (l.length - 1 - j)
  | none => none

/-- Python `pathlib.PurePath.stem` on a file name: the name without its final
suffix; the suffix is `name[i:]` for `i` the last index of `'.'` when
`0 < i < len(name) - 1`, else empty. -/
def stemOf (name : List Char) : List Char :=
  match lastIndexOf '.' name with
  | none => name
  | some i => if 0 < i ∧ i + 1 < name.length then name.take i else name

/-- `Path(dir) / name` with a POSIX separator. -/
def pathJoin (dir name : List Char) : List Char := dir ++ '/' :: name

/-- The exceptions `process_file` (and the merged-mode loop) catches while
reading a file: `UnicodeDecodeError`, or any other `Exception`. -/
inductive PyExc where
  | unicodeDecodeError
  | otherException
deriving DecidableEq

instance : DecidableEq (Except PyExc (List Char)) := fun
  | .error a, .error b =>
    match decEq a b with
    | isTrue h => isTrue (by rw [h])
    | isFalse h => isFalse (by intro he; cases he; exact h rfl)
  | .error _, .ok _ => isFalse (by intro h; cases h)
  | .ok _, .error _ => isFalse (by intro h; cases h)
  | .ok a, .ok b =>
    match decEq a b with
    | isTrue h => isTrue (by rw [h])
    | isFalse h => isFalse (by intro he; cases he; exact h rfl)

/-- One discovered input file: its name and the outcome of
`open(...).read()` (an `error` models the raised exception). -/
structure DirFile where
  name : List Char
  read : Except PyExc (List Char)
deriving DecidableEq

/-- The per-file console report each processing attempt prints: exactly one
of success, the two warnings, or the two error messages. -/
inductive FileReport where
  | success
  | emptyContent
  | noWords
  | decodeError
  | exception
deriving DecidableEq

/-- The tuple `(output_path, len(unique_words), unique_words)` returned by a
successful `process_file` call (source line 112). -/
structure FileResult where
  output_path : List Char
  count : Nat
  words : Finset (List Char)
deriving DecidableEq

/-- Observable effects of one `process_file` call: its return value
(`none` models Python `None`), whether `ensure_output_dir` ran, the file
write performed (path and list of lines, each line already carrying its
terminating `'\n'`), and the console report. -/
structure FileEffects where
  result : Option FileResult
  createdDir : Bool
  written : Option (List Char × List (List Char))
  report : FileReport
deriving DecidableEq

/-- Embeds `extract_chinese_words` (source lines 57-75): segment `content`
with the external segmenter `cut`, strip each token, keep the non-empty
pure-Chinese ones, and deduplicate into a set. -/
def extract_chinese_words (cut : List Char → List (List Char))
    (content : List Char) : Finset (List Char) :=
  if content = [] then ∅
  else
    (((cut content).map pyStrip).filter
      (fun w => !w.isEmpty && is_chinese_word w)).toFinset

/-- The sequence of candidate paths `get_unique_output_path` probes
(source lines 47 and 52): `{stem}_segmented.txt` first, then
`{stem}_segmented_{n}.txt`. -/
def segCandidate (output_dir base_filename : List Char) : Nat → List Char
  | 0 => pathJoin output_dir (stemOf base_filename ++ "_segmented.txt".data)
  | n + 1 =>
    pathJoin output_dir
      (stemOf base_filename ++ "_segmented_".data ++ natRepr (n + 1) ++ ".txt".data)

/-- The sequence of candidate paths the merged-mode loop probes
(source lines 207-213): `{dir_name}_merged_segmented.txt` first, then
`{dir_name}_merged_segmented_{n}.txt`. -/
def mergedCandidate (output_dir dir_name : List Char) : Nat → List Char
  | 0 => pathJoin output_dir (dir_name ++ "_merged_segmented.txt".data)
  | n + 1 =>
    pathJoin output_dir
      (dir_name ++ "_merged_segmented_".data ++ natRepr (n + 1) ++ ".txt".data)

/-- The `while output_path.exists(): counter += 1` probe loop, written with
explicit fuel; with fuel `existing.length + 1` the fallback `[]` branch is
never reached (the candidates are pairwise distinct, so some candidate is
free — see `resolveOutputPath_spec`). -/
def probeFrom (existing : List (List Char)) (cand : Nat → List Char) :
    Nat → Nat → List Char
  | _, 0 => []
  | counter, fuel + 1 =>
    if cand counter ∈ existing then probeFrom existing cand (counter + 1) fuel
    else cand counter

/-- Common shape of both collision-avoidance loops: take the base candidate
if it does not exist, else probe `cand 1, cand 2, ...` until a free one. -/
def resolveOutputPath (existing : List (List Char)) (cand : Nat → List Char) :
    List Char :=
  if cand 0 ∈ existing then probeFrom existing cand 1 (existing.length + 1)
  else cand 0

/-- Embeds `get_unique_output_path` (source lines 38-55); `existing` is the
set of paths for which `Path.exists()` answers true. -/
def get_unique_output_path (existing : List (List Char))
    (output_dir base_filename : List Char) : List Char :=
  resolveOutputPath existing (segCandidate output_dir base_filename)

/-- The inline probe loop of `process_directory_merged`
(source lines 205-214). -/
def merged_output_path (existing : List (List Char))
    (output_dir dir_name : List Char) : List Char :=
  resolveOutputPath existing (mergedCandidate output_dir dir_name)

/-- The lines written for a word set (source lines 104-107 and 216-219):
`for word in sorted(words): f.write(word + '\n')`. -/
def linesOf (words : Finset (List Char)) : List (List Char) :=
  (sortWords words).map (fun w => w ++ ['\n'])

/-- Embeds `process_file` (source lines 77-119).  `readRes` is the outcome of
reading the file (decode errors and unexpected exceptions are the caught
`except` branches), `cut` the external segmenter, `existing` the paths
existing in the output directory, `name` the input file's base name
(`Path(file_path).name`). -/
def process_file (readRes : Except PyExc (List Char))
    (cut : List Char → List (List Char)) (existing : List (List Char))
    (output_dir name : List Char) : FileEffects :=
  match readRes with
  | .error .unicodeDecodeError =>
    { result := none, createdDir := false, written := none,
      report := .decodeError }
  | .error .otherException =>
    { result := none, createdDir := false, written := none,
      report := .exception }
  | .ok raw =>
    let content := pyStrip raw
    if content = [] then
      { result := none, createdDir := false, written := none,
        report := .emptyContent }
    else
      let unique_words := extract_chinese_words cut content
      if unique_words = ∅ then
        { result := none, createdDir := false, written := none,
          report := .noWords }
      else
        let output_path := get_unique_output_path existing output_dir name
        { result := some ⟨output_path, unique_words.card, unique_words⟩,
          createdDir := true,
          written := some (output_path, linesOf unique_words),
          report := .success }

/-- The token set a single file contributes: the extracted words of its
stripped content, or nothing when reading raised. -/
def fileWords (cut : List Char → List (List Char)) (f : DirFile) :
    Finset (List Char) :=
  match f.read with
  | .error _ => ∅
  | .ok raw => extract_chinese_words cut (pyStrip raw)

/-- The console report one file produces in either directory mode. -/
def fileReport (cut : List Char → List (List Char)) (f : DirFile) :
    FileReport :=
  match f.read with
  | .error .unicodeDecodeError => .decodeError
  | .error .otherException => .exception
  | .ok raw =>
    if pyStrip raw = [] then .emptyContent
    else if extract_chinese_words cut (pyStrip raw) = ∅ then .noWords
    else .success

/-- One iteration of the merged-mode accumulation loop
(source lines 169-199): read, skip on empty content, no words, or exception,
else union the file's words into the running set. -/
def mergedStep (cut : List Char → List (List Char))
    (acc : Finset (List Char)) (f : DirFile) : Finset (List Char) :=
  match f.read with
  | .error _ => acc
  | .ok raw =>
    let content := pyStrip raw
    if content = [] then acc
    else
      let unique_words := extract_chinese_words cut content
      if unique_words = ∅ then acc else acc ∪ unique_words

/-- `all_unique_words` after the merged-mode loop (source lines 163-199). -/
def merged_words (cut : List Char → List (List Char)) (files : List DirFile) :
    Finset (List Char) :=
  files.foldl (mergedStep cut) ∅

/-- The per-file reports the merged-mode loop prints, one per file. -/
def mergedReports (cut : List Char → List (List Char))
    (files : List DirFile) : List FileReport :=
  files.map (fileReport cut)

/-- Observable effects of `process_directory_merged`: the returned result
list and the single file write (if any). -/
structure MergedEffects where
  results : List FileResult
  written : Option (List Char × List (List Char))
deriving DecidableEq

/-- Embeds `process_directory_merged` (source lines 159-233): accumulate all
files' word sets, return `[]` when nothing was extracted, else write the
sorted merged list to a collision-free path and return one result. -/
def process_directory_merged (cut : List Char → List (List Char))
    (dir_name : List Char) (files : List DirFile)
    (existing : List (List Char)) (output_dir : List Char) : MergedEffects :=
  let all_unique_words := merged_words cut files
  if all_unique_words = ∅ then { results := [], written := none }
  else
    let output_path := merged_output_path existing output_dir dir_name
    { results := [⟨output_path, all_unique_words.card, all_unique_words⟩],
      written := some (output_path, linesOf all_unique_words) }

/-- Observable effects of `process_directory_separate`: the collected
results, the final set of existing output paths, and every file write. -/
structure SeparateEffects where
  results : List FileResult
  existing : List (List Char)
  written : List (List Char × List (List Char))
deriving DecidableEq

/-- One iteration of `process_directory_separate` (source lines 242-251):
run `process_file`; on success collect the result, and the written file now
exists for later probes. -/
def sepStep (cut : List Char → List (List Char)) (output_dir : List Char)
    (st : SeparateEffects) (f : DirFile) : SeparateEffects :=
  let eff := process_file f.read cut st.existing output_dir f.name
  match eff.result, eff.written with
  | some res, some w =>
    { results := st.results ++ [res],
      existing := st.existing ++ [res.output_path],
      written := st.written ++ [w] }
  | _, _ => st

/-- Embeds `process_directory_separate` (source lines 235-260). -/
def process_directory_separate (cut : List Char → List (List Char))
    (files : List DirFile) (existing : List (List Char))
    (output_dir : List Char) : SeparateEffects :=
  files.foldl (sepStep cut output_dir) ⟨[], existing, []⟩

/-- Embeds the result list of `process_directory` (source lines 121-157):
`[]` when no text file was discovered, else dispatch on the merge flag.
`files` is the discovered, deduplicated file list. -/
def process_directory (cut : List Char → List (List Char))
    (dir_name : List Char) (files : List DirFile)
    (existing : List (List Char)) (output_dir : List Char)
    (merge_output : Bool) : List FileResult :=
  if files = [] then []
  else if merge_output then
    (process_directory_merged cut dir_name files existing output_dir).results
  else
    (process_directory_separate cut files existing output_dir).results

/-- What `os.path.isfile` / `os.path.isdir` answer for an existing input
path: a regular file, a directory, or neither (e.g. a FIFO or socket). -/
inductive PathKind where
  | file
  | dir
  | neither
deriving DecidableEq

/-- Embeds the exit behaviour of `main` (source lines 314-361): the exit code
of the process, `0` meaning main returned normally.  The arguments fix one
invocation: whether `args.path` exists and what kind of node it is, the
single-file read outcome and name, the directory's name and discovered
files, the existing output paths, the output directory, and the merge flag
(`not args.no_merge`). -/
def main_exit (cut : List Char → List (List Char)) (pathExists : Bool)
    (kind : PathKind) (fileRead : Except PyExc (List Char))
    (fileName dir_name : List Char) (dirFiles : List DirFile)
    (existing : List (List Char)) (output_dir : List Char)
    (merge_output : Bool) : Nat :=
  if pathExists = false then 1
  else
    match kind with
    | .file =>
      if (process_file fileRead cut existing output_dir fileName).result
          = none then 1
      else 0
    | .dir =>
      if process_directory cut dir_name dirFiles existing output_dir
          merge_output = [] then 1
      else 0
    | .neither => 1

/-- Decode a little-endian decimal digit list; left inverse of `digitsRev`. -/
def decodeRev (l : List Char) : Nat :=
  l.foldr (fun c acc => acc * 10 + (c.toNat - 48)) 0

/-- The decoded content of a file, `[]` when reading raised. -/
def rawContent (f : DirFile) : List Char :=
  match f.read with
  | .ok raw => raw
  | .error _ => []

/-- A segmenter used to instantiate the theorems at concrete inputs: it
returns the whole content as a single token. -/
def cutK : List Char → List (List Char) := fun c => [c]

/-- A concrete readable input file used to instantiate theorems. -/
def fileA : DirFile := ⟨"a.txt".data, Except.ok "中".data⟩

/-- A concrete input file whose read raises `UnicodeDecodeError`. -/
def fileB : DirFile := ⟨"b.txt".data, Except.error PyExc.unicodeDecodeError⟩

/-- A second concrete readable input file. -/
def fileC : DirFile := ⟨"c.txt".data, Except.ok "一".data⟩

/-! ## Characterisation of the token filter -/

theorem is_chinese_word_iff (w : List Char) :
    is_chinese_word w = true ↔
      ((w ≠ [] ∧ ∀ c ∈ w, isChineseChar c = true) ∨
        (∃ v, w = v ++ ['\n'] ∧ v ≠ [] ∧ ∀ c ∈ v, isChineseChar c = true)) := by
  unfold is_chinese_word
  rw [List.any_eq_true]
  constructor
  · rintro ⟨k, hk, hcond⟩
    rw [List.mem_range] at hk
    simp only [Bool.and_eq_true, bne_iff_ne, ne_eq, List.all_eq_true, dollarAt,
      Bool.or_eq_true, beq_iff_eq] at hcond
    obtain ⟨⟨hk0, hall⟩, hdollar⟩ := hcond
    rcases hdollar with hlen | ⟨hlen, hnl⟩
    · left
      subst hlen
      rw [List.take_length] at hall
      refine ⟨?_, hall⟩
      intro hnil
      rw [hnil] at hk0
      simp at hk0
    · right
      have hklt : k < w.length := by omega
      have hdlen : (w.drop k).length = 1 := by
        rw [List.length_drop]; omega
      obtain ⟨c, hc⟩ := List.length_eq_one.mp hdlen
      have hw : w = w.take k ++ [c] := by rw [← hc, List.take_append_drop]
      have htl : (w.take k).length = k := by rw [List.length_take]; omega
      have hc' : c = '\n' := by
        rw [hw] at hnl
        rw [List.getD_eq_getElem _ ' ' (by simp [htl])] at hnl
        rw [List.getElem_append_right (le_of_eq htl)] at hnl
        simpa [htl] using hnl
      refine ⟨w.take k, ?_, ?_, hall⟩
      · conv_lhs => rw [hw]
        rw [hc']
      · intro hnil
        have : (w.take k).length = 0 := by rw [hnil]; rfl
        omega
  · rintro (⟨hne, hall⟩ | ⟨v, rfl, hne, hall⟩)
    · refine ⟨w.length, ?_, ?_⟩
      · rw [List.mem_range]; omega
      · simp only [Bool.and_eq_true, bne_iff_ne, ne_eq, List.all_eq_true, dollarAt,
          Bool.or_eq_true, beq_iff_eq, List.take_length]
        have : w.length ≠ 0 := fun h => hne (List.eq_nil_of_length_eq_zero h)
        exact ⟨⟨this, hall⟩, Or.inl trivial⟩
    · refine ⟨v.length, ?_, ?_⟩
      · rw [List.mem_range, List.length_append]
        simp only [List.length_singleton]
        omega
      · simp only [Bool.and_eq_true, bne_iff_ne, ne_eq, List.all_eq_true, dollarAt,
          Bool.or_eq_true, beq_iff_eq]
        have hvne : v.length ≠ 0 := fun h => hne (List.eq_nil_of_length_eq_zero h)
        refine ⟨⟨hvne, ?_⟩, Or.inr ⟨by simp, ?_⟩⟩
        · intro c hc
          rw [List.take_left] at hc
          exact hall c hc
        · have hlt : v.length < (v ++ ['\n']).length := by
            rw [List.length_append]; simp
          rw [List.getD_eq_getElem _ ' ' hlt]
          rw [List.getElem_append_right (Nat.le_refl v.length)]
          simp

/-- C1: the claim fails on the code.  The token `"中\n"` contains a newline,
which lies in none of the three Unicode ranges, yet `is_chinese_word`
returns true, because Python's `$` also matches just before a trailing
newline. -/
theorem C1_counterexample :
    is_chinese_word ['中', '\n'] = true ∧
      ¬ (['中', '\n'] ≠ ([] : List Char) ∧
          ∀ c ∈ (['中', '\n'] : List Char), isChineseChar c = true) := by
  decide

/-- C1 (amended): for every token string `T`, `is_chinese_word T` returns
true iff `T` is non-empty and every character of `T` lies in the ranges
U+4E00-U+9FFF, U+3400-U+4DBF, U+20000-U+2A6DF, or `T` is such a string
followed by exactly one trailing newline character; no other partial match
is accepted. -/
theorem C1_token_filter_amended (w : List Char) :
    is_chinese_word w = true ↔
      ((w ≠ [] ∧ ∀ c ∈ w, isChineseChar c = true) ∨
        (∃ v, w = v ++ ['\n'] ∧ v ≠ [] ∧ ∀ c ∈ v, isChineseChar c = true)) :=
  is_chinese_word_iff w

/-! ## Properties of stripping and extraction -/

theorem dropWhile_eq_self_append {p : Char → Bool} :
    ∀ (a b : List Char), List.dropWhile p (a ++ b) = a ++ b →
      List.dropWhile p a = a := by
  intro a b h
  cases a with
  | nil => rfl
  | cons c t =>
    have hpc : p c = false := by
      by_contra hpc'
      have hpc2 : p c = true := by revert hpc'; cases p c <;> simp
      rw [List.cons_append, List.dropWhile_cons, if_pos hpc2] at h
      have hle := (List.dropWhile_sublist (l := t ++ b) p).length_le
      rw [h] at hle
      simp at hle
    rw [List.dropWhile_cons, if_neg (by simp [hpc])]

theorem pyStrip_idem (l : List Char) : pyStrip (pyStrip l) = pyStrip l := by
  unfold pyStrip
  have hAself : List.dropWhile isPySpace (l.dropWhile isPySpace)
      = l.dropWhile isPySpace := List.dropWhile_idempotent _ _
  have hsplit : (l.dropWhile isPySpace).reverse.takeWhile isPySpace ++
      (l.dropWhile isPySpace).reverse.dropWhile isPySpace
      = (l.dropWhile isPySpace).reverse := List.takeWhile_append_dropWhile _ _
  have hA' : l.dropWhile isPySpace =
      ((l.dropWhile isPySpace).reverse.dropWhile isPySpace).reverse ++
        ((l.dropWhile isPySpace).reverse.takeWhile isPySpace).reverse := by
    have h := congrArg List.reverse hsplit
    rw [List.reverse_append, List.reverse_reverse] at h
    exact h.symm
  have h1 : List.dropWhile isPySpace
      ((l.dropWhile isPySpace).reverse.dropWhile isPySpace).reverse =
      ((l.dropWhile isPySpace).reverse.dropWhile isPySpace).reverse := by
    rw [hA'] at hAself
    exact dropWhile_eq_self_append _ _ hAself
  rw [h1, List.reverse_reverse, List.dropWhile_idempotent _ _]

theorem pyStrip_concat_space_length (v : List Char) (c : Char)
    (hc : isPySpace c = true) :
    (pyStrip (v ++ [c])).length ≤ v.length := by
  unfold pyStrip
  rcases hR : (List.dropWhile isPySpace (v ++ [c])).reverse with _ | ⟨d, t⟩
  · simp
  · have hsplit : List.takeWhile isPySpace (v ++ [c]) ++
        List.dropWhile isPySpace (v ++ [c]) = v ++ [c] :=
      List.takeWhile_append_dropWhile _ _
    have hrev := congrArg List.reverse hsplit
    rw [List.reverse_append, hR, List.reverse_append, List.cons_append] at hrev
    simp only [List.reverse_cons, List.reverse_nil, List.nil_append,
      List.cons_append] at hrev
    have hd : d = c := (List.cons.injEq _ _ _ _ ▸ hrev).1
    have ht : t ++ (List.takeWhile isPySpace (v ++ [c])).reverse = v.reverse :=
      (List.cons.injEq _ _ _ _ ▸ hrev).2
    have htlen : t.length ≤ v.length := by
      have hl := congrArg List.length ht
      simp only [List.length_append, List.length_reverse] at hl
      omega
    rw [hd, List.dropWhile_cons, if_pos hc]
    have hdw := (List.dropWhile_sublist (l := t) isPySpace).length_le
    rw [List.length_reverse]
    omega

theorem mem_extract_spec {cut : List Char → List (List Char)}
    {content w : List Char} (hw : w ∈ extract_chinese_words cut content) :
    w ≠ [] ∧ pyStrip w = w ∧ is_chinese_word w = true := by
  unfold extract_chinese_words at hw
  split at hw
  · exact absurd hw (Finset.not_mem_empty w)
  · rw [List.mem_toFinset, List.mem_filter] at hw
    obtain ⟨hmem, hcond⟩ := hw
    rw [List.mem_map] at hmem
    obtain ⟨t, _, rfl⟩ := hmem
    rw [Bool.and_eq_true] at hcond
    refine ⟨?_, pyStrip_idem t, hcond.2⟩
    intro hnil
    rw [hnil] at hcond
    simp at hcond

theorem mem_extract_all_chinese {cut : List Char → List (List Char)}
    {content w : List Char} (hw : w ∈ extract_chinese_words cut content) :
    ∀ c ∈ w, isChineseChar c = true := by
  obtain ⟨_, hs, hcw⟩ := mem_extract_spec hw
  rcases (is_chinese_word_iff w).mp hcw with ⟨_, hall⟩ | ⟨v, heq, _, _⟩
  · exact hall
  · exfalso
    have hlen := pyStrip_concat_space_length v '\n' (by decide)
    rw [← heq, hs, heq, List.length_append] at hlen
    simp at hlen

/-- C9: every element of the set returned by `extract_chinese_words` is
non-empty, equals its own whitespace-stripped form, and satisfies
`is_chinese_word`; extraction from empty content yields the empty set. -/
theorem C9_extract_invariants :
    (∀ (cut : List Char → List (List Char)) (content w : List Char),
        w ∈ extract_chinese_words cut content →
          w ≠ [] ∧ pyStrip w = w ∧ is_chinese_word w = true) ∧
      ∀ cut : List Char → List (List Char), extract_chinese_words cut [] = ∅ :=
  ⟨fun _ _ _ hw => mem_extract_spec hw, fun _ => rfl⟩

/-- Witness for C9 at the one-token content `"中"`. -/
theorem C9_extract_invariants_witness :
    "中".data ≠ [] ∧ pyStrip "中".data = "中".data ∧
      is_chinese_word "中".data = true :=
  C9_extract_invariants.1 cutK "中".data "中".data (by decide)

/-! ## Correctness of the collision-avoiding output paths -/

theorem digitChar_toNat {d : Nat} (hd : d < 10) : (digitChar d).toNat = 48 + d := by
  have h : ∀ e, e < 10 → (digitChar e).toNat = 48 + e := by decide
  exact h d hd

theorem decodeRev_digitsRev : ∀ fuel n : Nat, n ≤ fuel →
    decodeRev (digitsRev (fuel + 1) n) = n := by
  intro fuel
  induction fuel with
  | zero =>
    intro n hn
    have hn0 : n = 0 := by omega
    subst hn0
    decide
  | succ f ih =>
    intro n hn
    by_cases h10 : n < 10
    · show decodeRev (if n < 10 then [digitChar n] else _) = n
      rw [if_pos h10]
      show 0 * 10 + ((digitChar n).toNat - 48) = n
      rw [digitChar_toNat h10]
      omega
    · show decodeRev (if n < 10 then _ else
        digitChar (n % 10) :: digitsRev (f + 1) (n / 10)) = n
      rw [if_neg h10]
      have hdivlt : n / 10 < n := Nat.div_lt_self (by omega) (by omega)
      have hdiv : n / 10 ≤ f := by omega
      have hmod : n % 10 < 10 := Nat.mod_lt n (by omega)
      show decodeRev (digitsRev (f + 1) (n / 10)) * 10 +
        ((digitChar (n % 10)).toNat - 48) = n
      rw [ih (n / 10) hdiv, digitChar_toNat hmod]
      have := Nat.div_add_mod n 10
      omega

theorem natRepr_inj : ∀ {m n : Nat}, natRepr m = natRepr n → m = n := by
  intro m n h
  unfold natRepr at h
  have h' : digitsRev (m + 1) m = digitsRev (n + 1) n := by
    have := congrArg List.reverse h
    rwa [List.reverse_reverse, List.reverse_reverse] at this
  have hm := decodeRev_digitsRev m m le_rfl
  have hn := decodeRev_digitsRev n n le_rfl
  rw [h', hn] at hm
  exact hm.symm

theorem pathJoin_counter_inj (output_dir pre suf : List Char) {a b : Nat}
    (h : pathJoin output_dir (pre ++ natRepr a ++ suf) =
      pathJoin output_dir (pre ++ natRepr b ++ suf)) : a = b := by
  unfold pathJoin at h
  have h1 := (List.append_right_inj output_dir).mp h
  have h2 : pre ++ natRepr a ++ suf = pre ++ natRepr b ++ suf := by
    injection h1
  have h3 := (List.append_left_inj suf).mp h2
  exact natRepr_inj ((List.append_right_inj pre).mp h3)

theorem segCandidate_inj (output_dir base_filename : List Char) :
    ∀ m n : Nat, 1 ≤ m → 1 ≤ n →
      segCandidate output_dir base_filename m =
        segCandidate output_dir base_filename n → m = n := by
  intro m n hm hn h
  obtain ⟨m', rfl⟩ : ∃ m', m = m' + 1 := ⟨m - 1, by omega⟩
  obtain ⟨n', rfl⟩ : ∃ n', n = n' + 1 := ⟨n - 1, by omega⟩
  have := pathJoin_counter_inj output_dir
    (stemOf base_filename ++ "_segmented_".data) ".txt".data h
  omega

theorem mergedCandidate_inj (output_dir dir_name : List Char) :
    ∀ m n : Nat, 1 ≤ m → 1 ≤ n →
      mergedCandidate output_dir dir_name m =
        mergedCandidate output_dir dir_name n → m = n := by
  intro m n hm hn h
  obtain ⟨m', rfl⟩ : ∃ m', m = m' + 1 := ⟨m - 1, by omega⟩
  obtain ⟨n', rfl⟩ : ∃ n', n = n' + 1 := ⟨n - 1, by omega⟩
  have := pathJoin_counter_inj output_dir
    (dir_name ++ "_merged_segmented_".data) ".txt".data h
  omega

theorem probeFrom_spec (existing : List (List Char)) (cand : Nat → List Char) :
    ∀ fuel counter : Nat,
      (∃ k, k < fuel ∧ cand (counter + k) ∉ existing) →
      ∃ k, k < fuel ∧ probeFrom existing cand counter fuel = cand (counter + k) ∧
        cand (counter + k) ∉ existing ∧
        ∀ j < k, cand (counter + j) ∈ existing := by
  intro fuel
  induction fuel with
  | zero => rintro counter ⟨k, hk, _⟩; omega
  | succ f ih =>
    rintro counter ⟨k, hk, hfree⟩
    by_cases hmem : cand counter ∈ existing
    · have hk0 : k ≠ 0 := by
        rintro rfl
        rw [Nat.add_zero] at hfree
        exact hfree hmem
      have hex : ∃ k', k' < f ∧ cand (counter + 1 + k') ∉ existing := by
        refine ⟨k - 1, by omega, ?_⟩
        have harith : counter + 1 + (k - 1) = counter + k := by omega
        rw [harith]
        exact hfree
      obtain ⟨k', hk', heq, hfree', hall⟩ := ih (counter + 1) hex
      refine ⟨k' + 1, by omega, ?_, ?_, ?_⟩
      · show (if cand counter ∈ existing then
            probeFrom existing cand (counter + 1) f else cand counter) = _
        rw [if_pos hmem, heq]
        congr 1
        omega
      · have harith : counter + 1 + k' = counter + (k' + 1) := by omega
        rwa [harith] at hfree'
      · intro j hj
        cases j with
        | zero => rwa [Nat.add_zero]
        | succ j' =>
          have := hall j' (by omega)
          have harith : counter + 1 + j' = counter + (j' + 1) := by omega
          rwa [harith] at this
    · refine ⟨0, by omega, ?_, by rwa [Nat.add_zero], ?_⟩
      · show (if cand counter ∈ existing then
            probeFrom existing cand (counter + 1) f else cand counter) = _
        rw [if_neg hmem, Nat.add_zero]
      · intro j hj
        exact absurd hj (Nat.not_lt_zero j)

theorem exists_free_candidate (existing : List (List Char))
    (cand : Nat → List Char)
    (hinj : ∀ m n, 1 ≤ m → 1 ≤ n → cand m = cand n → m = n) :
    ∃ k, k < existing.length + 1 ∧ cand (1 + k) ∉ existing := by
  by_contra hcon
  push_neg at hcon
  have himg : (Finset.range (existing.length + 1)).image (fun k => cand (1 + k))
      ⊆ existing.toFinset := by
    intro x hx
    rw [Finset.mem_image] at hx
    obtain ⟨k, hk, rfl⟩ := hx
    rw [List.mem_toFinset]
    exact hcon k (Finset.mem_range.mp hk)
  have hcard := Finset.card_le_card himg
  rw [Finset.card_image_of_injOn, Finset.card_range] at hcard
  · have := List.toFinset_card_le (l := existing)
    omega
  · intro a _ b _ hab
    have := hinj (1 + a) (1 + b) (by omega) (by omega) hab
    omega

theorem resolveOutputPath_spec (existing : List (List Char))
    (cand : Nat → List Char)
    (hinj : ∀ m n, 1 ≤ m → 1 ≤ n → cand m = cand n → m = n) :
    ∃ n, resolveOutputPath existing cand = cand n ∧ cand n ∉ existing ∧
      ∀ m < n, cand m ∈ existing := by
  unfold resolveOutputPath
  by_cases h0 : cand 0 ∈ existing
  · rw [if_pos h0]
    obtain ⟨k, hk, hfree⟩ := exists_free_candidate existing cand hinj
    obtain ⟨k', _, heq, hfree', hall⟩ :=
      probeFrom_spec existing cand (existing.length + 1) 1 ⟨k, hk, hfree⟩
    refine ⟨1 + k', heq, hfree', ?_⟩
    intro m hm
    cases m with
    | zero => exact h0
    | succ j =>
      have := hall j (by omega)
      have harith : 1 + j = j + 1 := by omega
      rwa [harith] at this
  · exact ⟨0, by rw [if_neg h0], h0, fun m hm => absurd hm (by omega)⟩

/-- C4: both output-path generators return a path that is not in the set of
existing paths, probing the base candidate (`{base}_segmented.txt`, resp.
`{dir}_merged_segmented.txt`) first and then numeric suffixes `_1, _2, ...`
in increasing order, and returning the first candidate that does not exist
— so an existing file is never overwritten and repeated runs produce
incrementing suffixes. -/
theorem C4_unique_output_path (existing : List (List Char))
    (output_dir base_filename dir_name : List Char) :
    (∃ n, get_unique_output_path existing output_dir base_filename =
        segCandidate output_dir base_filename n ∧
        segCandidate output_dir base_filename n ∉ existing ∧
        ∀ m < n, segCandidate output_dir base_filename m ∈ existing) ∧
      (∃ n, merged_output_path existing output_dir dir_name =
        mergedCandidate output_dir dir_name n ∧
        mergedCandidate output_dir dir_name n ∉ existing ∧
        ∀ m < n, mergedCandidate output_dir dir_name m ∈ existing) :=
  ⟨resolveOutputPath_spec existing _ (segCandidate_inj output_dir base_filename),
    resolveOutputPath_spec existing _ (mergedCandidate_inj output_dir dir_name)⟩

/-! ## Error behaviour of process_file and main -/

/-- C5: `process_file` reports a non-fatal error and returns `none` exactly
when decoding fails, the stripped content is empty, no Chinese tokens are
extracted, or an unexpected exception occurs; in every other case it
returns the output path, the word count, and the word set. -/
theorem C5_process_file_errors (readRes : Except PyExc (List Char))
    (cut : List Char → List (List Char)) (existing : List (List Char))
    (output_dir name : List Char) :
    ((process_file readRes cut existing output_dir name).result = none ↔
        readRes = Except.error PyExc.unicodeDecodeError ∨
          readRes = Except.error PyExc.otherException ∨
          ∃ raw, readRes = Except.ok raw ∧
            (pyStrip raw = [] ∨ extract_chinese_words cut (pyStrip raw) = ∅)) ∧
      ((process_file readRes cut existing output_dir name).result = none ↔
        (process_file readRes cut existing output_dir name).report ≠
          FileReport.success) ∧
      ∀ raw, readRes = Except.ok raw → pyStrip raw ≠ [] →
        extract_chinese_words cut (pyStrip raw) ≠ ∅ →
        (process_file readRes cut existing output_dir name).result =
          some ⟨get_unique_output_path existing output_dir name,
            (extract_chinese_words cut (pyStrip raw)).card,
            extract_chinese_words cut (pyStrip raw)⟩ := by
  rcases readRes with e | raw
  · cases e
    · refine ⟨by simp [process_file], by simp [process_file], ?_⟩
      intro raw h
      exact absurd h (by simp)
    · refine ⟨by simp [process_file], by simp [process_file], ?_⟩
      intro raw h
      exact absurd h (by simp)
  · by_cases hempty : pyStrip raw = []
    · refine ⟨by simp [process_file, hempty], by simp [process_file, hempty], ?_⟩
      intro raw' h hne
      injection h with h'
      subst h'
      exact absurd hempty hne
    · by_cases hwords : extract_chinese_words cut (pyStrip raw) = ∅
      · refine ⟨by simp [process_file, hempty, hwords],
          by simp [process_file, hempty, hwords], ?_⟩
        intro raw' h _ hnw
        injection h with h'
        subst h'
        exact absurd hwords hnw
      · refine ⟨by simp [process_file, hempty, hwords],
          by simp [process_file, hempty, hwords], ?_⟩
        intro raw' h _ _
        injection h with h'
        subst h'
        simp [process_file, hempty, hwords]

/-- Witness for C5 at the one-token content `"中"`: processing succeeds and
returns the path, count, and word set. -/
theorem C5_process_file_errors_witness :
    (process_file (Except.ok "中".data) cutK [] "raw".data "t.txt".data).result =
      some ⟨get_unique_output_path [] "raw".data "t.txt".data,
        (extract_chinese_words cutK (pyStrip "中".data)).card,
        extract_chinese_words cutK (pyStrip "中".data)⟩ :=
  (C5_process_file_errors (Except.ok "中".data) cutK [] "raw".data
    "t.txt".data).2.2 "中".data rfl (by decide) (by decide)

/-- C8: a file whose content is empty after stripping makes `process_file`
return `none`, create no output file and no output directory, and in
single-file mode the program exits with code 1. -/
theorem C8_empty_file (cut : List Char → List (List Char))
    (existing : List (List Char)) (output_dir name raw dir_name : List Char)
    (dirFiles : List DirFile) (merge_output : Bool)
    (hempty : pyStrip raw = []) :
    (process_file (Except.ok raw) cut existing output_dir name).result = none ∧
      (process_file (Except.ok raw) cut existing output_dir name).createdDir
        = false ∧
      (process_file (Except.ok raw) cut existing output_dir name).written
        = none ∧
      main_exit cut true PathKind.file (Except.ok raw) name dir_name dirFiles
        existing output_dir merge_output = 1 := by
  have heff : process_file (Except.ok raw) cut existing output_dir name =
      ⟨none, false, none, .emptyContent⟩ := by
    simp [process_file, hempty]
  refine ⟨by rw [heff], by rw [heff], by rw [heff], ?_⟩
  simp [main_exit, heff]

/-- Witness for C8 at the whitespace-only content `"  "`. -/
theorem C8_empty_file_witness :
    (process_file (Except.ok "  ".data) cutK [] "raw".data "t.txt".data).result
        = none ∧
      (process_file (Except.ok "  ".data) cutK [] "raw".data
        "t.txt".data).createdDir = false ∧
      (process_file (Except.ok "  ".data) cutK [] "raw".data
        "t.txt".data).written = none ∧
      main_exit cutK true PathKind.file (Except.ok "  ".data) "t.txt".data
        "d".data [] [] "raw".data true = 1 :=
  C8_empty_file cutK [] "raw".data "t.txt".data "  ".data "d".data [] true
    (by decide)

/-- C7: the claim fails on the code: a path that exists but is neither a
regular file nor a directory (e.g. a FIFO or a socket) reaches the final
`else` branch of `main` and exits with code 1, even though the input path
exists, single-file processing would succeed, and directory processing
would yield a result — none of the claim's three exit-1 conditions holds. -/
theorem C7_counterexample :
    main_exit cutK true PathKind.neither (Except.ok "中".data) "t.txt".data
        "d".data [⟨"a.txt".data, Except.ok "中".data⟩] [] "raw".data true = 1 ∧
      (process_file (Except.ok "中".data) cutK [] "raw".data
        "t.txt".data).result ≠ none ∧
      process_directory cutK "d".data [⟨"a.txt".data, Except.ok "中".data⟩] []
        "raw".data true ≠ [] := by
  refine ⟨rfl, ?_, ?_⟩
  · decide
  · decide

/-- C7 (amended): the CLI exits with code 1 exactly when the input path does
not exist, or single-file processing fails, or directory processing yields
zero results, or the path exists but is neither a regular file nor a
directory; in all other cases the exit code is 0. -/
theorem C7_exit_code_amended (cut : List Char → List (List Char))
    (pathExists : Bool) (kind : PathKind)
    (fileRead : Except PyExc (List Char)) (fileName dir_name : List Char)
    (dirFiles : List DirFile) (existing : List (List Char))
    (output_dir : List Char) (merge_output : Bool) :
    (main_exit cut pathExists kind fileRead fileName dir_name dirFiles
        existing output_dir merge_output = 1 ↔
      pathExists = false ∨
        (kind = PathKind.file ∧
          (process_file fileRead cut existing output_dir fileName).result
            = none) ∨
        (kind = PathKind.dir ∧
          process_directory cut dir_name dirFiles existing output_dir
            merge_output = []) ∨
        kind = PathKind.neither) ∧
      (main_exit cut pathExists kind fileRead fileName dir_name dirFiles
          existing output_dir merge_output = 0 ∨
        main_exit cut pathExists kind fileRead fileName dir_name dirFiles
          existing output_dir merge_output = 1) := by
  cases pathExists
  · exact ⟨by simp [main_exit], Or.inr (by simp [main_exit])⟩
  · cases kind
    · by_cases hres :
        (process_file fileRead cut existing output_dir fileName).result = none
      · exact ⟨by simp [main_exit, hres], Or.inr (by simp [main_exit, hres])⟩
      · exact ⟨by simp [main_exit, hres], Or.inl (by simp [main_exit, hres])⟩
    · by_cases hdir : process_directory cut dir_name dirFiles existing
        output_dir merge_output = []
      · exact ⟨by simp [main_exit, hdir], Or.inr (by simp [main_exit, hdir])⟩
      · exact ⟨by simp [main_exit, hdir], Or.inl (by simp [main_exit, hdir])⟩
    · exact ⟨by simp [main_exit], Or.inr (by simp [main_exit])⟩

/-! ## Sorted, duplicate-free output -/

theorem lexLt_cons {x y : Char} {xs ys : List Char} :
    lexLt (x :: xs) (y :: ys) = true ↔
      x.toNat < y.toNat ∨ (x.toNat = y.toNat ∧ lexLt xs ys = true) := by
  rcases Nat.lt_trichotomy x.toNat y.toNat with h | h | h
  · simp [lexLt, h]
  · have h1 : ¬ x.toNat < y.toNat := by omega
    have h2 : ¬ y.toNat < x.toNat := by omega
    simp [lexLt, h1, h2, h]
  · have h1 : ¬ x.toNat < y.toNat := by omega
    have h2 : x.toNat ≠ y.toNat := by omega
    simp [lexLt, h1, h, h2]

theorem lexLt_iff : ∀ {a b : List Char},
    lexLt a b = true ↔ lexLe a b = true ∧ a ≠ b := by
  intro a
  induction a with
  | nil =>
    intro b
    cases b with
    | nil => simp [lexLt, lexLe]
    | cons y ys => simp [lexLt, lexLe]
  | cons x xs ih =>
    intro b
    cases b with
    | nil => simp [lexLt, lexLe]
    | cons y ys =>
      rw [lexLt_cons, lexLe_cons]
      constructor
      · rintro (h | ⟨he, h⟩)
        · refine ⟨Or.inl h, ?_⟩
          intro hc
          injection hc with h1 _
          rw [h1] at h
          omega
        · obtain ⟨hle, hne⟩ := ih.mp h
          refine ⟨Or.inr ⟨he, hle⟩, ?_⟩
          intro hc
          injection hc with _ h2
          exact hne h2
      · rintro ⟨h | ⟨he, hle⟩, hne⟩
        · exact Or.inl h
        · refine Or.inr ⟨he, ih.mpr ⟨hle, ?_⟩⟩
          intro hc
          apply hne
          have hx : x = y := Char.ext (UInt32.ext he)
          rw [hx, hc]

theorem sortWords_sorted_lt (s : Finset (List Char)) :
    (sortWords s).Sorted lexLtP := by
  have hs : (sortWords s).Pairwise lexLeP := Finset.sort_sorted lexLeP s
  have hn : (sortWords s).Pairwise (· ≠ ·) := Finset.sort_nodup lexLeP s
  exact (hs.and hn).imp fun h => lexLt_iff.mpr h

theorem lexLt_append_newline : ∀ {a b : List Char},
    (∀ c ∈ a, isChineseChar c = true) → (∀ c ∈ b, isChineseChar c = true) →
    lexLt a b = true → lexLt (a ++ ['\n']) (b ++ ['\n']) = true := by
  intro a
  induction a with
  | nil =>
    intro b _ hb hlt
    cases b with
    | nil => simp [lexLt] at hlt
    | cons y ys =>
      have hy : isChineseChar y = true := hb y (List.mem_cons_self y ys)
      have hlt' : ('\n').toNat < y.toNat := by
        simp only [isChineseChar, Bool.or_eq_true, Bool.and_eq_true,
          decide_eq_true_eq] at hy
        show 10 < y.toNat
        omega
      rw [List.nil_append, List.cons_append]
      exact lexLt_cons.mpr (Or.inl hlt')
  | cons x xs ih =>
    intro b hxa hb hlt
    cases b with
    | nil => simp [lexLt] at hlt
    | cons y ys =>
      rw [lexLt_cons] at hlt
      rw [List.cons_append, List.cons_append, lexLt_cons]
      rcases hlt with h | ⟨he, h⟩
      · exact Or.inl h
      · refine Or.inr ⟨he, ih ?_ ?_ h⟩
        · exact fun c hc => hxa c (List.mem_cons_of_mem x hc)
        · exact fun c hc => hb c (List.mem_cons_of_mem y hc)

theorem linesOf_spec {words : Finset (List Char)}
    (hch : ∀ w ∈ words, ∀ c ∈ w, isChineseChar c = true) :
    ∃ ts : List (List Char),
      linesOf words = ts.map (fun w => w ++ ['\n']) ∧ ts.Nodup ∧
      ts.Sorted lexLtP ∧ (linesOf words).Nodup ∧
      (linesOf words).Sorted lexLtP ∧ ts.toFinset = words := by
  have hsortedlines : (linesOf words).Sorted lexLtP := by
    unfold linesOf
    refine List.pairwise_map.mpr ?_
    refine (sortWords_sorted_lt words).imp_of_mem ?_
    intro a b ha hb hab
    have ha' : a ∈ words := (Finset.mem_sort lexLeP).mp ha
    have hb' : b ∈ words := (Finset.mem_sort lexLeP).mp hb
    exact lexLt_append_newline (hch a ha') (hch b hb') hab
  have hnodup : (linesOf words).Nodup :=
    hsortedlines.imp fun h => (lexLt_iff.mp h).2
  exact ⟨sortWords words, rfl, Finset.sort_nodup lexLeP words,
    sortWords_sorted_lt words, hnodup, hsortedlines,
    Finset.sort_toFinset lexLeP words⟩

theorem process_file_written_spec {readRes : Except PyExc (List Char)}
    {cut : List Char → List (List Char)} {existing : List (List Char)}
    {output_dir name p : List Char} {lines : List (List Char)}
    (h : (process_file readRes cut existing output_dir name).written
      = some (p, lines)) :
    ∃ (ts : List (List Char)) (res : FileResult),
      (process_file readRes cut existing output_dir name).result = some res ∧
      lines = ts.map (fun w => w ++ ['\n']) ∧ ts.Nodup ∧ ts.Sorted lexLtP ∧
      lines.Nodup ∧ lines.Sorted lexLtP ∧ ts.toFinset = res.words := by
  rcases readRes with e | raw
  · cases e <;> simp [process_file] at h
  · by_cases hempty : pyStrip raw = []
    · simp [process_file, hempty] at h
    · by_cases hwords : extract_chinese_words cut (pyStrip raw) = ∅
      · simp [process_file, hempty, hwords] at h
      · have heq : (process_file (Except.ok raw) cut existing output_dir
            name).written = some (get_unique_output_path existing output_dir
              name, linesOf (extract_chinese_words cut (pyStrip raw))) := by
          simp [process_file, hempty, hwords]
        rw [heq] at h
        injection h with h'
        have hp : lines = linesOf (extract_chinese_words cut (pyStrip raw)) := by
          have := congrArg Prod.snd h'
          simpa using this.symm
        obtain ⟨ts, hmap, hnd, hst, hlnd, hlst, htf⟩ :=
          @linesOf_spec (extract_chinese_words cut (pyStrip raw))
            (fun w hw => mem_extract_all_chinese hw)
        refine ⟨ts, ⟨get_unique_output_path existing output_dir name,
          (extract_chinese_words cut (pyStrip raw)).card,
          extract_chinese_words cut (pyStrip raw)⟩,
          by simp [process_file, hempty, hwords], ?_, hnd, hst, ?_, ?_, htf⟩
        · rw [hp, hmap]
        · rw [hp]; exact hlnd
        · rw [hp]; exact hlst

theorem mem_fileWords_all_chinese {cut : List Char → List (List Char)}
    {f : DirFile} {w : List Char} (hw : w ∈ fileWords cut f) :
    ∀ c ∈ w, isChineseChar c = true := by
  unfold fileWords at hw
  rcases hr : f.read with e | raw
  · rw [hr] at hw
    exact absurd hw (Finset.not_mem_empty w)
  · rw [hr] at hw
    exact mem_extract_all_chinese hw

theorem mem_mergedStep {cut : List Char → List (List Char)}
    {acc : Finset (List Char)} {f : DirFile} {x : List Char} :
    x ∈ mergedStep cut acc f ↔ x ∈ acc ∨ x ∈ fileWords cut f := by
  unfold mergedStep fileWords
  rcases hr : f.read with e | raw
  · simp
  · by_cases hempty : pyStrip raw = []
    · simp [hempty, extract_chinese_words]
    · by_cases hwords : extract_chinese_words cut (pyStrip raw) = ∅
      · simp [hempty, hwords]
      · simp [hempty, hwords, Finset.mem_union]

theorem mem_foldl_mergedStep {cut : List Char → List (List Char)}
    {x : List Char} : ∀ (files : List DirFile) (acc : Finset (List Char)),
    x ∈ files.foldl (mergedStep cut) acc ↔
      x ∈ acc ∨ ∃ f ∈ files, x ∈ fileWords cut f := by
  intro files
  induction files with
  | nil => intro acc; simp
  | cons g gs ih =>
    intro acc
    rw [List.foldl_cons, ih, mem_mergedStep]
    simp only [List.mem_cons]
    constructor
    · rintro ((h | h) | ⟨f, hf, hx⟩)
      · exact Or.inl h
      · exact Or.inr ⟨g, Or.inl rfl, h⟩
      · exact Or.inr ⟨f, Or.inr hf, hx⟩
    · rintro (h | ⟨f, hf | hf, hx⟩)
      · exact Or.inl (Or.inl h)
      · subst hf
        exact Or.inl (Or.inr hx)
      · exact Or.inr ⟨f, hf, hx⟩

theorem mem_merged_words {cut : List Char → List (List Char)}
    {files : List DirFile} {x : List Char} :
    x ∈ merged_words cut files ↔ ∃ f ∈ files, x ∈ fileWords cut f := by
  unfold merged_words
  rw [mem_foldl_mergedStep]
  simp

theorem merged_written_spec {cut : List Char → List (List Char)}
    {dir_name : List Char} {files : List DirFile}
    {existing : List (List Char)} {output_dir p : List Char}
    {lines : List (List Char)}
    (h : (process_directory_merged cut dir_name files existing
      output_dir).written = some (p, lines)) :
    ∃ ts : List (List Char),
      lines = ts.map (fun w => w ++ ['\n']) ∧ ts.Nodup ∧ ts.Sorted lexLtP ∧
      lines.Nodup ∧ lines.Sorted lexLtP ∧
      ts.toFinset = merged_words cut files := by
  unfold process_directory_merged at h
  by_cases hw : merged_words cut files = ∅
  · rw [if_pos hw] at h
    simp at h
  · rw [if_neg hw] at h
    simp only [Option.some.injEq] at h
    have hp : lines = linesOf (merged_words cut files) := by
      have := congrArg Prod.snd h
      simpa using this.symm
    have hch : ∀ w ∈ merged_words cut files, ∀ c ∈ w,
        isChineseChar c = true := by
      intro w hwm
      obtain ⟨f, _, hf⟩ := mem_merged_words.mp hwm
      exact mem_fileWords_all_chinese hf
    obtain ⟨ts, hmap, hnd, hst, hlnd, hlst, htf⟩ := linesOf_spec hch
    exact ⟨ts, by rw [hp, hmap], hnd, hst, by rw [hp]; exact hlnd,
      by rw [hp]; exact hlst, htf⟩

theorem sepStep_written_spec {cut : List Char → List (List Char)}
    {output_dir : List Char} :
    ∀ (files : List DirFile) (st : SeparateEffects),
      (∀ e ∈ st.written, ∃ ts : List (List Char),
        e.2 = ts.map (fun w => w ++ ['\n']) ∧ ts.Nodup ∧ ts.Sorted lexLtP ∧
          e.2.Nodup ∧ e.2.Sorted lexLtP) →
      ∀ e ∈ (files.foldl (sepStep cut output_dir) st).written,
        ∃ ts : List (List Char),
          e.2 = ts.map (fun w => w ++ ['\n']) ∧ ts.Nodup ∧ ts.Sorted lexLtP ∧
            e.2.Nodup ∧ e.2.Sorted lexLtP := by
  intro files
  induction files with
  | nil => intro st hst; exact hst
  | cons g gs ih =>
    intro st hst
    rw [List.foldl_cons]
    apply ih
    intro e he
    simp only [sepStep] at he
    rcases hres : (process_file g.read cut st.existing output_dir
        g.name).result with _ | res
    · rw [hres] at he
      exact hst e he
    · rcases hwr : (process_file g.read cut st.existing output_dir
          g.name).written with _ | w
      · rw [hres, hwr] at he
        exact hst e he
      · obtain ⟨w1, w2⟩ := w
        rw [hres, hwr] at he
        simp only [List.mem_append, List.mem_singleton] at he
        rcases he with he | rfl
        · exact hst e he
        · obtain ⟨ts, _, hr2, hmap, hnd, hst', hlnd, hlst, _⟩ :=
            process_file_written_spec hwr
          exact ⟨ts, hmap, hnd, hst', hlnd, hlst⟩

/-- C2: every file write performed by a successful run — single-file mode
(`process_file`), merged mode, or separate mode — writes each extracted word
exactly once as one LF-terminated line, with the lines (equivalently the
tokens) in strictly ascending code-point order. -/
theorem C2_sorted_unique_output (cut : List Char → List (List Char))
    (existing : List (List Char)) (output_dir : List Char) :
    (∀ (readRes : Except PyExc (List Char)) (name p : List Char)
        (lines : List (List Char)),
        (process_file readRes cut existing output_dir name).written
          = some (p, lines) →
        ∃ (ts : List (List Char)) (res : FileResult),
          (process_file readRes cut existing output_dir name).result
            = some res ∧
          lines = ts.map (fun w => w ++ ['\n']) ∧ ts.Nodup ∧
          ts.Sorted lexLtP ∧ lines.Nodup ∧ lines.Sorted lexLtP ∧
          ts.toFinset = res.words) ∧
      (∀ (dir_name : List Char) (files : List DirFile) (p : List Char)
          (lines : List (List Char)),
          (process_directory_merged cut dir_name files existing
            output_dir).written = some (p, lines) →
          ∃ ts : List (List Char),
            lines = ts.map (fun w => w ++ ['\n']) ∧ ts.Nodup ∧
            ts.Sorted lexLtP ∧ lines.Nodup ∧ lines.Sorted lexLtP ∧
            ts.toFinset = merged_words cut files) ∧
      ∀ (files : List DirFile) (e : List Char × List (List Char)),
        e ∈ (process_directory_separate cut files existing output_dir).written →
        ∃ ts : List (List Char),
          e.2 = ts.map (fun w => w ++ ['\n']) ∧ ts.Nodup ∧ ts.Sorted lexLtP ∧
          e.2.Nodup ∧ e.2.Sorted lexLtP :=
  ⟨fun _ _ _ _ h => process_file_written_spec h,
    fun _ _ _ _ h => merged_written_spec h,
    fun files e he =>
      sepStep_written_spec files ⟨[], existing, []⟩
        (fun _ he' => absurd he' (List.not_mem_nil _)) e he⟩

/-- Witness for C2: a single-file run and a merged run over the one-token
content `"中"`. -/
theorem C2_sorted_unique_output_witness :
    (∃ (ts : List (List Char)) (res : FileResult),
      (process_file (Except.ok "中".data) cutK [] "raw".data
        "t.txt".data).result = some res ∧
      linesOf (extract_chinese_words cutK (pyStrip "中".data)) =
        ts.map (fun w => w ++ ['\n']) ∧ ts.Nodup ∧ ts.Sorted lexLtP ∧
      (linesOf (extract_chinese_words cutK (pyStrip "中".data))).Nodup ∧
      (linesOf (extract_chinese_words cutK (pyStrip "中".data))).Sorted
        lexLtP ∧
      ts.toFinset = res.words) ∧
    ∃ ts : List (List Char),
      linesOf (merged_words cutK [⟨"a.txt".data, Except.ok "中".data⟩]) =
        ts.map (fun w => w ++ ['\n']) ∧ ts.Nodup ∧ ts.Sorted lexLtP ∧
      (linesOf (merged_words cutK [⟨"a.txt".data,
        Except.ok "中".data⟩])).Nodup ∧
      (linesOf (merged_words cutK [⟨"a.txt".data,
        Except.ok "中".data⟩])).Sorted lexLtP ∧
      ts.toFinset = merged_words cutK [⟨"a.txt".data, Except.ok "中".data⟩] :=
  ⟨(C2_sorted_unique_output cutK [] "raw".data).1 (Except.ok "中".data)
      "t.txt".data (get_unique_output_path [] "raw".data "t.txt".data)
      (linesOf (extract_chinese_words cutK (pyStrip "中".data))) rfl,
    (C2_sorted_unique_output cutK [] "raw".data).2.1 "d".data
      [⟨"a.txt".data, Except.ok "中".data⟩]
      (merged_output_path [] "raw".data "d".data)
      (linesOf (merged_words cutK [⟨"a.txt".data, Except.ok "中".data⟩]))
      rfl⟩

/-! ## Merged-mode union, order independence, and batch continuation -/

theorem fileWords_eq (cut : List Char → List (List Char)) (f : DirFile) :
    fileWords cut f = extract_chinese_words cut (pyStrip (rawContent f)) := by
  unfold fileWords rawContent
  have hnil : pyStrip ([] : List Char) = [] := rfl
  rcases hr : f.read with e | raw
  · simp [extract_chinese_words, hnil]
  · simp

theorem mem_foldr_union {x : List Char} :
    ∀ ls : List (Finset (List Char)),
      x ∈ ls.foldr (· ∪ ·) ∅ ↔ ∃ s ∈ ls, x ∈ s := by
  intro ls
  induction ls with
  | nil => simp
  | cons s ss ih => simp [List.foldr_cons, Finset.mem_union, ih]

theorem merged_words_drop (cut : List Char → List (List Char)) {g : DirFile}
    (hgw : fileWords cut g = ∅) (pre suf : List DirFile) :
    merged_words cut (pre ++ g :: suf) = merged_words cut (pre ++ suf) := by
  ext x
  rw [mem_merged_words, mem_merged_words]
  constructor
  · rintro ⟨f, hf, hx⟩
    rcases List.mem_append.mp hf with h | h
    · exact ⟨f, List.mem_append.mpr (Or.inl h), hx⟩
    · rcases List.mem_cons.mp h with rfl | h'
      · rw [hgw] at hx
        exact absurd hx (Finset.not_mem_empty x)
      · exact ⟨f, List.mem_append.mpr (Or.inr h'), hx⟩
  · rintro ⟨f, hf, hx⟩
    rcases List.mem_append.mp hf with h | h
    · exact ⟨f, List.mem_append.mpr (Or.inl h), hx⟩
    · exact ⟨f, List.mem_append.mpr (Or.inr (List.mem_cons_of_mem g h)), hx⟩

/-- C3: the word set merged-mode processing accumulates (and writes) equals
the union, over all input files, of `extract_chinese_words` applied to the
file's stripped content; files contributing an empty set do not change the
result; and when the merged set is non-empty it is exactly what the single
returned result carries. -/
theorem C3_merged_union (cut : List Char → List (List Char))
    (dir_name : List Char) (files : List DirFile)
    (existing : List (List Char)) (output_dir : List Char) :
    merged_words cut files =
      (files.map fun f => extract_chinese_words cut (pyStrip
        (rawContent f))).foldr (· ∪ ·) ∅ ∧
      (∀ (pre suf : List DirFile) (g : DirFile),
        extract_chinese_words cut (pyStrip (rawContent g)) = ∅ →
        merged_words cut (pre ++ g :: suf) = merged_words cut (pre ++ suf)) ∧
      (merged_words cut files ≠ ∅ →
        (process_directory_merged cut dir_name files existing
          output_dir).results =
        [⟨merged_output_path existing output_dir dir_name,
          (merged_words cut files).card, merged_words cut files⟩]) := by
  refine ⟨?_, ?_, ?_⟩
  · ext x
    rw [mem_merged_words, mem_foldr_union]
    constructor
    · rintro ⟨f, hf, hx⟩
      exact ⟨_, List.mem_map_of_mem _ hf, by rwa [← fileWords_eq]⟩
    · rintro ⟨s, hs, hx⟩
      rw [List.mem_map] at hs
      obtain ⟨f, hf, rfl⟩ := hs
      exact ⟨f, hf, by rwa [fileWords_eq]⟩
  · intro pre suf g hg
    exact merged_words_drop cut (by rw [fileWords_eq]; exact hg) pre suf
  · intro hne
    simp [process_directory_merged, hne]

/-- Witness for C3: removing a file that fails to decode does not change the
merged set, and a non-empty merged run returns exactly its merged set. -/
theorem C3_merged_union_witness :
    merged_words cutK ([] ++ fileB :: [fileA]) =
      merged_words cutK ([] ++ [fileA]) ∧
    (process_directory_merged cutK "d".data [fileA] [] "raw".data).results =
      [⟨merged_output_path [] "raw".data "d".data,
        (merged_words cutK [fileA]).card, merged_words cutK [fileA]⟩] :=
  ⟨(C3_merged_union cutK "d".data [fileA] [] "raw".data).2.1 [] [fileA]
      fileB (by decide),
    (C3_merged_union cutK "d".data [fileA] [] "raw".data).2.2 (by decide)⟩

/-- C10: the merged-mode output (returned results and written file) is
identical for any two processing orders of the same multiset of discovered
files: the accumulated union and the final sort erase the order in which
the unordered file set was traversed. -/
theorem C10_order_independence (cut : List Char → List (List Char))
    (dir_name : List Char) (existing : List (List Char))
    (output_dir : List Char) (files₁ files₂ : List DirFile)
    (hperm : files₁.Perm files₂) :
    process_directory_merged cut dir_name files₁ existing output_dir =
      process_directory_merged cut dir_name files₂ existing output_dir := by
  have hmw : merged_words cut files₁ = merged_words cut files₂ := by
    ext x
    rw [mem_merged_words, mem_merged_words]
    constructor
    · rintro ⟨f, hf, hx⟩
      exact ⟨f, hperm.mem_iff.mp hf, hx⟩
    · rintro ⟨f, hf, hx⟩
      exact ⟨f, hperm.mem_iff.mpr hf, hx⟩
  unfold process_directory_merged
  rw [hmw]

/-- Witness for C10: two two-file batches in swapped order produce the same
merged output. -/
theorem C10_order_independence_witness :
    process_directory_merged cutK "d".data [fileA, fileC] [] "raw".data =
      process_directory_merged cutK "d".data [fileC, fileA] [] "raw".data :=
  C10_order_independence cutK "d".data [] "raw".data _ _
    (List.Perm.swap fileC fileA [])

theorem fileWords_empty_of_fail {cut : List Char → List (List Char)}
    {g : DirFile} (h : fileReport cut g ≠ FileReport.success) :
    fileWords cut g = ∅ := by
  unfold fileReport at h
  unfold fileWords
  rcases hr : g.read with e | raw
  · simp
  · rw [hr] at h
    by_cases hempty : pyStrip raw = []
    · simp [hempty, extract_chinese_words]
    · by_cases hwords : extract_chinese_words cut (pyStrip raw) = ∅
      · exact hwords
      · exfalso
        apply h
        simp [hempty, hwords]

theorem process_file_fail_result {cut : List Char → List (List Char)}
    {existing : List (List Char)} {output_dir : List Char} (g : DirFile)
    (h : fileReport cut g ≠ FileReport.success) :
    (process_file g.read cut existing output_dir g.name).result = none := by
  unfold fileReport at h
  rcases hr : g.read with e | raw
  · cases e <;> simp [process_file]
  · rw [hr] at h
    by_cases hempty : pyStrip raw = []
    · simp [process_file, hempty]
    · by_cases hwords : extract_chinese_words cut (pyStrip raw) = ∅
      · simp [process_file, hempty, hwords]
      · exfalso
        apply h
        simp [hempty, hwords]

theorem sepStep_fail {cut : List Char → List (List Char)}
    {output_dir : List Char} (st : SeparateEffects) (g : DirFile)
    (h : fileReport cut g ≠ FileReport.success) :
    sepStep cut output_dir st g = st := by
  simp only [sepStep]
  rw [process_file_fail_result g h]

/-- C6: in both directory modes a per-file failure (decode error, empty
content, no extracted tokens, or unexpected exception) never aborts the
batch: the effects of the run are those of the batch without the failing
file, and the merged loop still prints one report per file. -/
theorem C6_batch_continues (cut : List Char → List (List Char))
    (dir_name : List Char) (existing : List (List Char))
    (output_dir : List Char) (pre suf : List DirFile) (g : DirFile)
    (hfail : fileReport cut g ≠ FileReport.success) :
    process_directory_merged cut dir_name (pre ++ g :: suf) existing
        output_dir =
      process_directory_merged cut dir_name (pre ++ suf) existing
        output_dir ∧
      process_directory_separate cut (pre ++ g :: suf) existing output_dir =
        process_directory_separate cut (pre ++ suf) existing output_dir ∧
      ∀ files : List DirFile,
        (mergedReports cut files).length = files.length := by
  refine ⟨?_, ?_, fun files => by simp [mergedReports]⟩
  · have hmw := merged_words_drop cut (fileWords_empty_of_fail hfail) pre suf
    unfold process_directory_merged
    rw [hmw]
  · unfold process_directory_separate
    rw [List.foldl_append, List.foldl_append, List.foldl_cons,
      sepStep_fail _ g hfail]

/-- Witness for C6: removing a file that fails to decode leaves both modes'
effects unchanged. -/
theorem C6_batch_continues_witness :
    process_directory_merged cutK "d".data ([fileA] ++ fileB :: [fileC]) []
        "raw".data =
      process_directory_merged cutK "d".data ([fileA] ++ [fileC]) []
        "raw".data ∧
    process_directory_separate cutK ([fileA] ++ fileB :: [fileC]) []
        "raw".data =
      process_directory_separate cutK ([fileA] ++ [fileC]) [] "raw".data :=
  ⟨(C6_batch_continues cutK "d".data [] "raw".data [fileA] [fileC] fileB
      (by decide)).1,
    (C6_batch_continues cutK "d".data [] "raw".data [fileA] [fileC] fileB
      (by decide)).2.1⟩

end ChineseSegmenter
